import Mathlib

/-!
MaxScale hint parser (`server/modules/filter/hint/hintparser.c`).

A shallow embedding of the comment locator, the tokenizer `hint_next_token`,
the hint grammar of `hint_parser` and the session's hint stack and named hint
registry, followed by theorems about them.

Conventions of the embedding:

* a byte (`char`) is a `Nat`; a C string is the list of its bytes without the
  terminating NUL, and a `char *` that may be `NULL` is an `Option`;
* a `HINT *` chain is a `List HINT`, the `NULL` chain being `[]`;
* `malloc` and `strdup` are taken to succeed.
-/

namespace HintParser

/-! ## Bytes and C strings -/

/-- The bytes of a string literal. -/
def str (s : String) : List Nat := s.toList.map Char.toNat

/-- The `isspace` of `<ctype.h>` in the C locale: space, and `\t \n \v \f \r`. -/
def isspace (c : Nat) : Bool := c == 32 || (decide (9 ≤ c) && decide (c ≤ 13))

/-- The `tolower` of `<ctype.h>` in the C locale. -/
def tolower (c : Nat) : Nat := if 65 ≤ c ∧ c ≤ 90 then c + 32 else c

/-- The C string held by a `char` array whose stored bytes are `w`, followed by
a NUL: the bytes before the first NUL. -/
def cstr (w : List Nat) : List Nat := w.takeWhile (fun c => c != 0)

/-- The test `strcasecmp(a, b) == 0` on two C strings. -/
def strcasecmp_eq (a b : List Nat) : Bool := a.map tolower == b.map tolower

/-! ## Tokens and the keyword table -/

/-- The token kinds (`TOKEN_VALUE` of `mysqlhint.h`, as used by the parser). -/
inductive TOKEN_VALUE where
  | TOK_MAXSCALE
  | TOK_PREPARE
  | TOK_START
  | TOK_STOP
  | TOK_EQUAL
  | TOK_STRING
  | TOK_ROUTE
  | TOK_TO
  | TOK_MASTER
  | TOK_SLAVE
  | TOK_SERVER
  | TOK_EOL
  deriving DecidableEq, Repr

open TOKEN_VALUE

/-- A token: its kind and, for `TOK_STRING` only, the word (`value` is `NULL`
otherwise). -/
structure HINT_TOKEN where
  token : TOKEN_VALUE
  value : Option (List Nat)
  deriving DecidableEq, Repr

/-- The keyword table `keywords[]`, in the order of the source. -/
def keywords : List (List Nat × TOKEN_VALUE) :=
  [ (str "maxscale", TOK_MAXSCALE),
    (str "prepare", TOK_PREPARE),
    (str "start", TOK_START),
    (str "begin", TOK_START),
    (str "stop", TOK_STOP),
    (str "end", TOK_STOP),
    (str "=", TOK_EQUAL),
    (str "route", TOK_ROUTE),
    (str "to", TOK_TO),
    (str "master", TOK_MASTER),
    (str "slave", TOK_SLAVE),
    (str "server", TOK_SERVER) ]

/-! ## The segmented buffer and its cursor -/

/-- Modelled from the spec: the buffer chain `GWBUF` (declared in `buffer.h`,
which is not among the sources) is the ordered list of byte segments of
section 4.1, and the pair `(*buf, *ptr)` is a cursor into it. `ptr` holds the
bytes of the current segment from `*ptr` to its last byte; `next` holds the
segments that follow (`(*buf)->next` and onwards). The source's tests
`ptr <= buf->end` and `ptr > buf->end` are read as "the cursor is inside the
current segment" and "the cursor has left the current segment" (so that `end`
is taken to address the last byte of the segment, and `GWBUF_LENGTH` to count
the bytes of the segment). -/
structure GWCursor where
  ptr : List Nat
  next : List (List Nat)
  deriving DecidableEq, Repr

/-- The byte `**ptr`. Inside a segment it is the byte under the cursor. The
source also dereferences the cursor when it has left a segment that has a
successor (possible only after an empty segment); that read is outside the
segment and is given the value 0 here. -/
def GWCursor.peek (cu : GWCursor) : Nat := cu.ptr.headD 0

/-- The step `(*ptr)++; if (*ptr > (*buf)->end && (*buf)->next) { *buf =
(*buf)->next; *ptr = (*buf)->start; }` of the tokenizer. -/
def GWCursor.advance (cu : GWCursor) : GWCursor :=
  match cu.ptr.tail, cu.next with
  | [], b :: bs => ⟨b, bs⟩
  | t, nx => ⟨t, nx⟩

/-- The number of loop iterations the cursor can still support: the bytes left
plus the segments left. -/
def GWCursor.measure (cu : GWCursor) : Nat :=
  cu.ptr.length + (cu.next.map List.length).sum + cu.next.length

/-! ## The tokenizer `hint_next_token` -/

/-- The locals of `hint_next_token`: the bytes stored in `word` so far (so
`dest - word` is `word.length`), `inword` and `inquote` (either NUL or a single
quote, hence a flag). -/
structure LexSt where
  word : List Nat
  inword : Bool
  inquote : Bool
  deriving DecidableEq, Repr

/-- The `while` loop of `hint_next_token` (lines 372-398). One unit of fuel is
spent per iteration; `GWCursor.measure` bounds the iterations. -/
def hint_next_token_loop : Nat → GWCursor → LexSt → GWCursor × LexSt
  | 0, cu, st => (cu, st)
  | fuel + 1, cu, st =>
    if cu.ptr = [] ∧ cu.next = [] then (cu, st)
    else
      let c := cu.peek
      if st.inword && !st.inquote && (c == 61 || isspace c) then
        (cu, { st with inword := false })
      else
        let st1 : LexSt :=
          if c == 39 && st.inquote then { st with inquote := false }
          else if c == 39 then { st with inquote := true }
          else if st.inword || !isspace c then
            { st with word := st.word ++ [c], inword := true }
          else st
        let cu1 := cu.advance
        if st1.word.length > 98 then (cu1, st1)
        else hint_next_token_loop fuel cu1 st1

/-- The keyword lookup of lines 409-423 on the C string `w` held in `word`. -/
def classify (w : List Nat) : HINT_TOKEN :=
  match keywords.find? (fun k => strcasecmp_eq w k.1) with
  | some k => ⟨k.2, none⟩
  | none => ⟨TOK_STRING, some w⟩

/-- The function `hint_next_token`: the next token and the cursor after it. -/
def hint_next_token (cu : GWCursor) : HINT_TOKEN × GWCursor :=
  let r := hint_next_token_loop cu.measure cu ⟨[], false, false⟩
  let w := cstr r.2.word
  if w = [] then (⟨TOK_EOL, none⟩, r.1) else (classify w, r.1)

/-! ## Hints, the stack and the registry -/

/-- The hint kinds (`HINT_TYPE` of `hint.h`). -/
inductive HINT_TYPE where
  | HINT_ROUTE_TO_MASTER
  | HINT_ROUTE_TO_NAMED_SERVER
  | HINT_ROUTE_TO_SLAVE
  | HINT_PARAMETER
  deriving DecidableEq, Repr

open HINT_TYPE

/-- One hint: its kind, `data` (server or parameter name) and `value`. -/
structure HINT where
  type : HINT_TYPE
  data : Option (List Nat)
  value : Option (List Nat)
  deriving DecidableEq, Repr

/-- The hint RouteToMaster of the data model. -/
def RouteToMaster : HINT := ⟨HINT_ROUTE_TO_MASTER, none, none⟩

/-- The hint RouteToSlave of the data model. -/
def RouteToSlave : HINT := ⟨HINT_ROUTE_TO_SLAVE, none, none⟩

/-- The hint RouteToNamedServer(name) of the data model. -/
def RouteToNamedServer (name : List Nat) : HINT :=
  ⟨HINT_ROUTE_TO_NAMED_SERVER, some name, none⟩

/-- The hint Parameter(name, value) of the data model. -/
def Parameter (name value : List Nat) : HINT :=
  ⟨HINT_PARAMETER, some name, some value⟩

/-- Modelled from the spec: `hint_create_route` (defined in `hint.c`, not among
the sources) appends a route hint to the result sequence. -/
def hint_create_route (head : List HINT) (type : HINT_TYPE)
    (data : Option (List Nat)) : List HINT :=
  head ++ [⟨type, data, none⟩]

/-- Modelled from the spec: `hint_create_parameter` (defined in `hint.c`, not
among the sources) appends a parameter hint to the result sequence. -/
def hint_create_parameter (head : List HINT) (pname value : Option (List Nat)) :
    List HINT :=
  head ++ [⟨HINT_PARAMETER, pname, value⟩]

/-- Modelled from the spec: `hint_dup` (defined in `hint.c`, not among the
sources) makes an independent copy of a hint sequence; on values the copy is
the sequence itself. -/
def hint_dup (h : List HINT) : List HINT := h

/-- The session: the stack of active hint sets (top first) and the named hint
blocks (most recently created first). -/
structure HINT_SESSION where
  stack : List (List HINT)
  named_hints : List (List Nat × List HINT)
  deriving DecidableEq, Repr

/-- The function `hint_pop`: drop the top frame, if there is one. -/
def hint_pop (session : HINT_SESSION) : HINT_SESSION :=
  match session.stack with
  | [] => session
  | _ :: below => { session with stack := below }

/-- The function `hint_push`: a new top frame holding `hint`. -/
def hint_push (session : HINT_SESSION) (hint : List HINT) : HINT_SESSION :=
  { session with stack := hint :: session.stack }

/-- The walk of `lookup_named_hint` along the `named_hints` chain. -/
def lookup_chain : List (List Nat × List HINT) → List Nat → List HINT
  | [], _ => []
  | blk :: more, name => if blk.1 = name then blk.2 else lookup_chain more name

/-- The function `lookup_named_hint`: the hints of the first block called
`name`, or `NULL` (the empty chain) when there is none. -/
def lookup_named_hint (session : HINT_SESSION) (name : List Nat) : List HINT :=
  lookup_chain session.named_hints name

/-- The function `create_named_hint`: a new block at the head of the chain. -/
def create_named_hint (session : HINT_SESSION) (name : List Nat)
    (hint : List HINT) : HINT_SESSION :=
  { session with named_hints := (name, hint) :: session.named_hints }

/-! ## The comment locator (lines 82-143 of `hint_parser`) -/

/-- The locals of the comment scan: `lastch`, `escape`, `quoted`, `squoted`. -/
structure ScanSt where
  lastch : Nat
  escape : Bool
  quoted : Bool
  squoted : Bool
  deriving DecidableEq, Repr

/-- The locals at the start of the scan: `lastch = ' '`, the flags clear. -/
def ScanSt.init : ScanSt := ⟨32, false, false, false⟩

/-- The body of `while (len--)` on the byte `c = *ptr`, branch for branch as in
lines 92-126: `none` when the body sets `found` and breaks (the cursor stays on
`c`), otherwise the locals after the body (the cursor then moves on). -/
def scan_byte (c : Nat) (st : ScanSt) : Option ScanSt :=
  if c == 92 then some { st with escape := true }
  else if c == 34 && st.quoted then some { st with quoted := false }
  else if c == 34 && !st.quoted then some { st with quoted := false }
  else if c == 39 && st.squoted then some { st with squoted := false }
  else if c == 34 && !st.squoted then some { st with squoted := false }
  else if st.quoted || st.squoted then some st
  else if st.escape then some { st with escape := false }
  else if c == 35 then none
  else if c == 47 then some { st with lastch := 47 }
  else if c == 42 && st.lastch == 47 then none
  else if c == 45 && st.lastch == 45 then none
  else if c == 45 then some { st with lastch := 45 }
  else some { st with lastch := c }

/-- The loop `while (len--)` over one segment: either the locals at the end of
the segment, or the bytes from the comment opener that was found onwards. -/
def scan_segment : List Nat → ScanSt → ScanSt ⊕ List Nat
  | [], st => Sum.inl st
  | c :: cs, st =>
    match scan_byte c st with
    | none => Sum.inr (c :: cs)
    | some st1 => scan_segment cs st1

/-- The `do ... while (buf)` loop over the chain: the cursor on the byte that
set `found`, or `none` when no segment holds a comment opener. -/
def find_comment : List (List Nat) → ScanSt → Option GWCursor
  | [], _ => none
  | seg :: more, st =>
    match scan_segment seg st with
    | Sum.inr p => some ⟨p, more⟩
    | Sum.inl st1 => find_comment more st1

/-- Lines 152-160: `ptr++`, moving to the next segment when the cursor has left
the current one; `none` when there is no next segment (`goto retblock`). -/
def enter_comment (cu : GWCursor) : Option GWCursor :=
  match cu.ptr.tail, cu.next with
  | [], [] => none
  | [], b :: bs => some ⟨b, bs⟩
  | t, nx => some ⟨t, nx⟩

/-! ## The hint grammar (lines 169-337 of `hint_parser`) -/

/-- The grammar states (`HS_*` of `mysqlhint.h`). -/
inductive HINT_STATE where
  | HS_INIT
  | HS_ROUTE
  | HS_ROUTE1
  | HS_ROUTE_SERVER
  | HS_NAME
  | HS_PVALUE
  | HS_PREPARE
  deriving DecidableEq, Repr

/-- The type `HINT_MODE` of the source. -/
inductive HINT_MODE where
  | HM_EXECUTE
  | HM_START
  | HM_PREPARE
  deriving DecidableEq, Repr

open HINT_STATE HINT_MODE

/-- The session together with the locals of `hint_parser` that the grammar
loop reads and writes. `pname` and `lvalue` are not initialised by the source;
`none` stands for a pointer that was never assigned. -/
structure ParseSt where
  session : HINT_SESSION
  state : HINT_STATE
  rval : List HINT
  pname : Option (List Nat)
  lvalue : Option (List Nat)
  hintname : Option (List Nat)
  mode : HINT_MODE
  deriving DecidableEq, Repr

/-- The locals at line 169: `state = HS_INIT`, `rval = NULL`,
`hintname = NULL`, `mode = HM_EXECUTE`. -/
def ParseSt.init (session : HINT_SESSION) : ParseSt :=
  ⟨session, HS_INIT, [], none, none, none, HM_EXECUTE⟩

/-- The body of `case HS_NAME:` (lines 230-250). -/
def name_case (tok : HINT_TOKEN) (st : ParseSt) : ParseSt :=
  match tok.token with
  | TOK_EQUAL => { st with pname := st.lvalue, state := HS_PVALUE }
  | TOK_PREPARE => { st with pname := st.lvalue, state := HS_PREPARE }
  | TOK_START => { st with hintname := st.lvalue, mode := HM_START, state := HS_INIT }
  | _ => st

/-- The `switch (state)` of lines 173-273 on one token. The case
`HS_ROUTE_SERVER` has no `break` and runs on into the body of `HS_NAME`. -/
def hint_parser_step (tok : HINT_TOKEN) (st : ParseSt) : ParseSt :=
  match st.state with
  | HS_INIT =>
    match tok.token with
    | TOK_ROUTE => { st with state := HS_ROUTE }
    | TOK_STRING => { st with state := HS_NAME, lvalue := tok.value }
    | TOK_STOP => { st with session := hint_pop st.session, state := HS_INIT }
    | _ => st
  | HS_ROUTE => { st with state := HS_ROUTE1 }
  | HS_ROUTE1 =>
    match tok.token with
    | TOK_MASTER => { st with rval := hint_create_route st.rval HINT_ROUTE_TO_MASTER none }
    | TOK_SLAVE => { st with rval := hint_create_route st.rval HINT_ROUTE_TO_SLAVE none }
    | TOK_SERVER => { st with state := HS_ROUTE_SERVER }
    | _ => st
  | HS_ROUTE_SERVER =>
    name_case tok
      (if tok.token = TOK_STRING then
        { st with rval := hint_create_route st.rval HINT_ROUTE_TO_NAMED_SERVER tok.value }
      else st)
  | HS_NAME => name_case tok st
  | HS_PVALUE =>
    { st with rval := hint_create_parameter st.rval st.pname tok.value, state := HS_INIT }
  | HS_PREPARE =>
    let st1 : ParseSt := { st with mode := HM_PREPARE, hintname := st.lvalue }
    match tok.token with
    | TOK_ROUTE => { st1 with state := HS_ROUTE }
    | TOK_STRING => { st1 with state := HS_NAME, lvalue := tok.value }
    | _ => st1

/-- The loop `while ((tok = hint_next_token(&buf, &ptr)) != NULL &&
tok->token != TOK_EOL)` of lines 170-275. One unit of fuel is spent per token;
`GWCursor.measure + 1` bounds the tokens. -/
def hint_parser_loop : Nat → GWCursor → ParseSt → ParseSt
  | 0, _, st => st
  | fuel + 1, cu, st =>
    let r := hint_next_token cu
    if r.1.token = TOK_EOL then st
    else hint_parser_loop fuel r.2 (hint_parser_step r.1 st)

/-- The `switch (mode)` of lines 277-337: the session and `rval` after it. -/
def hint_parser_finish (st : ParseSt) : HINT_SESSION × List HINT :=
  match st.mode with
  | HM_START =>
    match st.hintname with
    | none =>
      if st.rval ≠ [] then (hint_push st.session st.rval, [])
      else (st.session, st.rval)
    | some name =>
      if st.rval ≠ [] then
        if lookup_named_hint st.session name ≠ [] then (st.session, st.rval)
        else
          (hint_push (create_named_hint st.session name st.rval) (hint_dup st.rval),
            st.rval)
      else
        (hint_push st.session (hint_dup (lookup_named_hint st.session name)), [])
  | HM_PREPARE =>
    match st.hintname with
    | none => (st.session, [])
    | some name =>
      if st.rval = [] then (st.session, [])
      else (create_named_hint st.session name st.rval, [])
  | HM_EXECUTE => (st.session, st.rval)

/-- The block `retblock:` (lines 339-348): with no hint of its own the
statement gets a copy of the top of the stack, if there is one. -/
def retblock (session : HINT_SESSION) (rval : List HINT) : List HINT × HINT_SESSION :=
  if rval = [] then
    match session.stack with
    | [] => ([], session)
    | top :: _ => (hint_dup top, session)
  else (rval, session)

/-- Lines 162-337 of `hint_parser`, entered with the cursor on the first byte
of the comment body: the leading token must be `TOK_MAXSCALE`, then the grammar
loop and the `switch (mode)` run; every path ends in `retblock`. -/
def hint_parser_body (session : HINT_SESSION) (cu1 : GWCursor) :
    List HINT × HINT_SESSION :=
  let r := hint_next_token cu1
  if r.1.token ≠ TOK_MAXSCALE then retblock session []
  else
    let st := hint_parser_loop (r.2.measure + 1) r.2 (ParseSt.init session)
    let fin := hint_parser_finish st
    retblock fin.1 fin.2

/-- The function `hint_parser` of the source (named `hint_parser_fn` here): the
hints returned for the statement and the session after the call. The request is the chain of segments holding the SQL
text: `modutil_MySQL_Query` (not among the sources) is taken to yield the text
of the first segment, which runs to the end of that segment. -/
def hint_parser_fn (session : HINT_SESSION) (request : List (List Nat)) :
    List HINT × HINT_SESSION :=
  match find_comment request ScanSt.init with
  | none => retblock session []
  | some cu0 =>
    match enter_comment cu0 with
    | none => retblock session []
    | some cu1 => hint_parser_body session cu1

/-- The tokens the grammar loop reads from a cursor, up to and without the
`TOK_EOL` that ends the loop (same fuel discipline as `hint_parser_loop`). -/
def token_stream : Nat → GWCursor → List HINT_TOKEN
  | 0, _ => []
  | fuel + 1, cu =>
    let r := hint_next_token cu
    if r.1.token = TOK_EOL then [] else r.1 :: token_stream fuel r.2

/-! ## Predicates on the input used by the theorems -/

/-- SQL text that holds no comment opener (`#`, `/*`, `--`), no quote (single
or double) and no backslash. -/
def plain_sql (p : List Nat) : Prop :=
  35 ∉ p ∧ 92 ∉ p ∧ 34 ∉ p ∧ 39 ∉ p ∧ ¬ (str "/*" <:+: p) ∧ ¬ (str "--" <:+: p)

/-- The reserved words and their tokens as the specification lists them:
`begin` stands for START and `end` for STOP. -/
def reserved_words : List (List Nat × TOKEN_VALUE) :=
  [ (str "maxscale", TOK_MAXSCALE), (str "prepare", TOK_PREPARE),
    (str "start", TOK_START), (str "begin", TOK_START),
    (str "stop", TOK_STOP), (str "end", TOK_STOP),
    (str "route", TOK_ROUTE), (str "to", TOK_TO),
    (str "master", TOK_MASTER), (str "slave", TOK_SLAVE),
    (str "server", TOK_SERVER) ]

/-- The cursor over the same bytes presented as one segment. -/
def GWCursor.flat (cu : GWCursor) : GWCursor := ⟨cu.ptr ++ cu.next.flatten, []⟩

/-- A cursor into a chain of non-empty segments: no segment ahead is empty, and
the cursor has left its segment only when no segment follows. -/
def GWCursor.wf (cu : GWCursor) : Prop :=
  (∀ s ∈ cu.next, s ≠ []) ∧ (cu.ptr = [] → cu.next = [])

/-- The bytes left under and after the cursor. -/
def GWCursor.bytes (cu : GWCursor) : Nat :=
  cu.ptr.length + (cu.next.map List.length).sum

/-- A token that is none of STOP, START and PREPARE. -/
def no_directive (t : HINT_TOKEN) : Prop :=
  t.token ≠ TOK_STOP ∧ t.token ≠ TOK_START ∧ t.token ≠ TOK_PREPARE

/-- With no hint of its own a statement gets the top of the stack, or nothing,
and the session is left as it is. -/
theorem retblock_nil (session : HINT_SESSION) :
    (retblock session []).2 = session ∧
    (session.stack = [] → (retblock session []).1 = []) ∧
    (∀ top below, session.stack = top :: below →
      (retblock session []).1 = hint_dup top) := by
  unfold retblock
  cases hs : session.stack with
  | nil => simp
  | cons t b => simp

/-- Claim C1: for every session and every statement in which the comment
locator finds no comment opener, `hint_parser` returns a copy of the hint
sequence of the top frame when the stack is non-empty and nothing when it is
empty, and the session (stack and registry) after the call is the session
before it. -/
theorem hint_parser_no_comment (session : HINT_SESSION) (request : List (List Nat))
    (h : find_comment request ScanSt.init = none) :
    (hint_parser_fn session request).2 = session ∧
    (session.stack = [] → (hint_parser_fn session request).1 = []) ∧
    (∀ top below, session.stack = top :: below →
      (hint_parser_fn session request).1 = hint_dup top) := by
  have e : hint_parser_fn session request = retblock session [] := by
    simp only [hint_parser_fn, h]
  rw [e]
  exact retblock_nil session

/-- Witness of C1: a statement without comment in a session whose stack holds
one frame `[RouteToSlave]` above a frame `[RouteToMaster]`. -/
theorem hint_parser_no_comment_witness :
    find_comment [str "select 1 from t"] ScanSt.init = none ∧
    (hint_parser_fn ⟨[[RouteToSlave], [RouteToMaster]], []⟩ [str "select 1 from t"]).1
      = hint_dup [RouteToSlave] :=
  ⟨by decide,
   (hint_parser_no_comment ⟨[[RouteToSlave], [RouteToMaster]], []⟩
      [str "select 1 from t"] (by decide)).2.2 [RouteToSlave] [[RouteToMaster]] rfl⟩

/-- One scan step on a byte that is no quote, backslash or `#` and that does
not complete `/*` or `--`: the scan goes on, its flags clear, with the byte as
`lastch`. -/
theorem scan_byte_plain (c l : Nat)
    (h35 : c ≠ 35) (h92 : c ≠ 92) (h34 : c ≠ 34) (h39 : c ≠ 39)
    (hstar : ¬ (l = 47 ∧ c = 42)) (hdash : ¬ (l = 45 ∧ c = 45)) :
    scan_byte c ⟨l, false, false, false⟩ = some ⟨c, false, false, false⟩ := by
  unfold scan_byte
  by_cases h47 : c = 47
  · subst h47; simp
  · by_cases h45 : c = 45
    · subst h45
      have : l ≠ 45 := fun h => hdash ⟨h, rfl⟩
      simp [this]
    · by_cases h42 : c = 42
      · subst h42
        have : l ≠ 47 := fun h => hstar ⟨h, rfl⟩
        simp [this]
      · simp [h35, h92, h34, h39, h47, h45, h42]

/-- The scan of a segment runs through a leading stretch of plain SQL and
reaches the rest of the segment with its flags clear. -/
theorem scan_segment_plain (p : List Nat) : ∀ (l : Nat) (q : List Nat),
    (∀ c ∈ p, c ≠ 35 ∧ c ≠ 92 ∧ c ≠ 34 ∧ c ≠ 39) →
    ¬ ([47, 42] <:+: l :: p) → ¬ ([45, 45] <:+: l :: p) →
    ∃ l1, scan_segment (p ++ q) ⟨l, false, false, false⟩
      = scan_segment q ⟨l1, false, false, false⟩ := by
  induction p with
  | nil => intro l q _ _ _; exact ⟨l, rfl⟩
  | cons c cs ih =>
    intro l q hc hstar hdash
    have hcc := hc c (List.mem_cons_self c cs)
    have e := scan_byte_plain c l hcc.1 hcc.2.1 hcc.2.2.1 hcc.2.2.2
      (fun h => hstar ⟨[], cs, by simp [h.1, h.2]⟩)
      (fun h => hdash ⟨[], cs, by simp [h.1, h.2]⟩)
    obtain ⟨l1, h1⟩ := ih c q (fun x hx => hc x (List.mem_cons_of_mem c hx))
      (fun h => hstar (List.infix_cons h)) (fun h => hdash (List.infix_cons h))
    refine ⟨l1, ?_⟩
    simp only [List.cons_append, scan_segment, e]
    exact h1

/-- The comment locator on a single segment made of plain SQL followed by a
`/*` comment: the cursor is left on the `*`. -/
theorem find_comment_plain_slash_star (p rest : List Nat) (hp : plain_sql p) :
    find_comment [p ++ 47 :: 42 :: rest] ScanSt.init = some ⟨42 :: rest, []⟩ := by
  obtain ⟨h35, h92, h34, h39, hstar, hdash⟩ := hp
  have hs : str "/*" = [47, 42] := by decide
  have hd : str "--" = [45, 45] := by decide
  rw [hs] at hstar
  rw [hd] at hdash
  obtain ⟨l1, h1⟩ := scan_segment_plain p 32 (47 :: 42 :: rest)
    (fun c hc => ⟨fun h => h35 (h ▸ hc), fun h => h92 (h ▸ hc), fun h => h34 (h ▸ hc),
      fun h => h39 (h ▸ hc)⟩)
    (fun h => by
      rcases List.infix_cons_iff.1 h with h | h
      · simp [List.prefix_cons_inj] at h
      · exact hstar h)
    (fun h => by
      rcases List.infix_cons_iff.1 h with h | h
      · simp [List.prefix_cons_inj] at h
      · exact hdash h)
  have e : scan_segment (47 :: 42 :: rest) ⟨l1, false, false, false⟩
      = Sum.inr (42 :: rest) := by
    simp [scan_segment, scan_byte]
  simp only [find_comment, ScanSt.init, h1, e]

/-- Claim C2 (Scenario A): for every session and every SQL text `p` with no
comment opener, quote or backslash, the statement `p` followed by
`/* maxscale route to master */` makes `hint_parser` return exactly
[RouteToMaster] and leaves the session (stack and registry) unchanged. -/
theorem scenario_A_route_to_master (session : HINT_SESSION) (p : List Nat)
    (hp : plain_sql p) :
    hint_parser_fn session [p ++ str "/* maxscale route to master */"]
      = ([RouteToMaster], session) := by
  have hs : str "/* maxscale route to master */"
      = 47 :: 42 :: str " maxscale route to master */" := by decide
  have e : hint_parser_fn session [p ++ str "/* maxscale route to master */"]
      = hint_parser_body session ⟨str " maxscale route to master */", []⟩ := by
    simp only [hint_parser_fn, hs, find_comment_plain_slash_star p _ hp]
    rfl
  rw [e]
  rfl

/-- Witness of C2: the SQL text `select a/b - 1 from t ` in a session with an
active frame and a defined name. -/
theorem scenario_A_route_to_master_witness :
    plain_sql (str "select a/b - 1 from t ") ∧
    hint_parser_fn ⟨[[RouteToSlave]], [(str "myhints", [RouteToSlave])]⟩
        [str "select a/b - 1 from t " ++ str "/* maxscale route to master */"]
      = ([RouteToMaster], ⟨[[RouteToSlave]], [(str "myhints", [RouteToSlave])]⟩) :=
  have h : plain_sql (str "select a/b - 1 from t ") := by
    unfold plain_sql; decide
  ⟨h, scenario_A_route_to_master _ _ h⟩

/-- Claim C3 (Scenario F), evaluated on the code: in the comment
`# maxscale x=1` the tokens after `maxscale` are STRING("x") and STRING("=1"),
not STRING("x"), `=`, STRING("1"): an `=` that starts a word is stored in the
word and the byte after it is added to the same word. The grammar then sees a
name followed by a word, and `hint_parser` returns no hint at all in a session
with an empty stack. -/
theorem scenario_F_equal_sign_glued :
    token_stream 14 ⟨str " maxscale x=1", []⟩
      = [⟨TOK_MAXSCALE, none⟩, ⟨TOK_STRING, some (str "x")⟩,
         ⟨TOK_STRING, some (str "=1")⟩] ∧
    hint_parser_fn ⟨[], []⟩ [str "# maxscale x=1"] = ([], ⟨[], []⟩) ∧
    hint_parser_fn ⟨[], []⟩ [str "# maxscale x = 1"]
      = ([Parameter (str "x") (str "1")], ⟨[], []⟩) := by
  refine ⟨?_, ?_, ?_⟩ <;> decide

/-- Claim C4, evaluated on the code: in `select '#' from t` the comment locator
stops on the `#` between the quotes. The scan never sets a quote flag (every
quote branch assigns 0): after the opening quote the flags are still clear, so
the quote suppresses nothing. -/
theorem quoted_hash_is_found :
    find_comment [str "select '#' from t"] ScanSt.init
      = some ⟨str "#' from t", []⟩ ∧
    scan_byte 39 ScanSt.init = some ⟨39, false, false, false⟩ ∧
    scan_byte 34 ScanSt.init = some ⟨32, false, false, false⟩ := by
  refine ⟨?_, ?_, ?_⟩ <;> decide

/-- Claim C5: for every session and every statement whose first comment does
not begin with the token `maxscale` (the comment body may also be empty, the
input ending right after the opener), `hint_parser` returns what it returns
for a statement with no comment at all in that session, namely the copy of the
top of the stack or nothing, and leaves the session as it was. -/
theorem hint_parser_not_maxscale (session : HINT_SESSION)
    (request plain : List (List Nat)) (cu0 : GWCursor)
    (hfound : find_comment request ScanSt.init = some cu0)
    (hfirst : ∀ cu1, enter_comment cu0 = some cu1 →
      (hint_next_token cu1).1.token ≠ TOK_MAXSCALE)
    (hplain : find_comment plain ScanSt.init = none) :
    hint_parser_fn session request = hint_parser_fn session plain ∧
    (hint_parser_fn session request).2 = session ∧
    (session.stack = [] → (hint_parser_fn session request).1 = []) ∧
    (∀ top below, session.stack = top :: below →
      (hint_parser_fn session request).1 = hint_dup top) := by
  have e0 : hint_parser_fn session plain = retblock session [] := by
    simp only [hint_parser_fn, hplain]
  have e1 : hint_parser_fn session request = retblock session [] := by
    simp only [hint_parser_fn, hfound]
    cases hc : enter_comment cu0 with
    | none => rfl
    | some cu1 =>
      simp only [hint_parser_body]
      rw [if_pos (hfirst cu1 hc)]
  rw [e0, e1]
  exact ⟨rfl, retblock_nil session⟩

/-- Witness of C5: the comment `/* not a hint */` in a session with an active
frame behaves as the statement without the comment. -/
theorem hint_parser_not_maxscale_witness :
    hint_parser_fn ⟨[[RouteToSlave]], []⟩ [str "select 1 /* not a hint */"]
      = hint_parser_fn ⟨[[RouteToSlave]], []⟩ [str "select 1"] ∧
    (hint_parser_fn ⟨[[RouteToSlave]], []⟩ [str "select 1 /* not a hint */"]).2
      = ⟨[[RouteToSlave]], []⟩ :=
  have h := hint_parser_not_maxscale ⟨[[RouteToSlave]], []⟩
    [str "select 1 /* not a hint */"] [str "select 1"] ⟨str "* not a hint */", []⟩
    (by decide) (by intro cu1 h1; cases h1; decide) (by decide)
  ⟨h.1, h.2.1⟩

/-- Claim C6 (Scenario B): in a session with an empty stack in which `myhints`
is not defined, the comment `-- maxscale myhints prepare route to slave` makes
the lookup of `myhints` return [RouteToSlave], leaves the stack empty and
returns an empty hint set. -/
theorem scenario_B_prepare (session : HINT_SESSION)
    (hstack : session.stack = [])
    (_hundef : lookup_named_hint session (str "myhints") = []) :
    lookup_named_hint
        (hint_parser_fn session [str "-- maxscale myhints prepare route to slave"]).2
        (str "myhints") = [RouteToSlave] ∧
    (hint_parser_fn session [str "-- maxscale myhints prepare route to slave"]).2.stack = [] ∧
    (hint_parser_fn session [str "-- maxscale myhints prepare route to slave"]).1 = [] := by
  have e : hint_parser_fn session [str "-- maxscale myhints prepare route to slave"]
      = retblock (create_named_hint session (str "myhints") [RouteToSlave]) [] := by
    rfl
  rw [e]
  refine ⟨?_, ?_, ?_⟩
  · simp [retblock, create_named_hint, hstack, lookup_named_hint, lookup_chain]
  · simp [retblock, create_named_hint, hstack]
  · simp [retblock, create_named_hint, hstack]

/-- Witness of C6: the session with nothing on the stack and nothing defined. -/
theorem scenario_B_prepare_witness :
    lookup_named_hint
        (hint_parser_fn ⟨[], []⟩ [str "-- maxscale myhints prepare route to slave"]).2
        (str "myhints") = [RouteToSlave] ∧
    (hint_parser_fn ⟨[], []⟩ [str "-- maxscale myhints prepare route to slave"]).2.stack = [] ∧
    (hint_parser_fn ⟨[], []⟩ [str "-- maxscale myhints prepare route to slave"]).1 = [] :=
  scenario_B_prepare ⟨[], []⟩ rfl rfl

/-- One iteration of the tokenizer loop, as written in the source. -/
theorem hint_next_token_loop_succ (fuel : Nat) (cu : GWCursor) (st : LexSt) :
    hint_next_token_loop (fuel + 1) cu st =
      if cu.ptr = [] ∧ cu.next = [] then (cu, st)
      else
        if st.inword && !st.inquote && (cu.peek == 61 || isspace cu.peek) then
          (cu, { st with inword := false })
        else
          if (if cu.peek == 39 && st.inquote then { st with inquote := false }
              else if cu.peek == 39 then { st with inquote := true }
              else if st.inword || !isspace cu.peek then
                { st with word := st.word ++ [cu.peek], inword := true }
              else st : LexSt).word.length > 98 then
            (cu.advance,
              (if cu.peek == 39 && st.inquote then { st with inquote := false }
              else if cu.peek == 39 then { st with inquote := true }
              else if st.inword || !isspace cu.peek then
                { st with word := st.word ++ [cu.peek], inword := true }
              else st : LexSt))
          else hint_next_token_loop fuel cu.advance
              (if cu.peek == 39 && st.inquote then { st with inquote := false }
              else if cu.peek == 39 then { st with inquote := true }
              else if st.inword || !isspace cu.peek then
                { st with word := st.word ++ [cu.peek], inword := true }
              else st : LexSt) := rfl

/-- Moving the cursor on uses up one unit of the measure at least. -/
theorem measure_advance (cu : GWCursor) (h : ¬ (cu.ptr = [] ∧ cu.next = [])) :
    cu.advance.measure < cu.measure := by
  rcases cu with ⟨p, nx⟩
  rcases p with _ | ⟨c, _ | ⟨c1, t1⟩⟩ <;> rcases nx with _ | ⟨b, bs⟩ <;>
    (simp [GWCursor.advance, GWCursor.measure] at h ⊢; try omega)

/-- Inside a segment the cursor moves to the next byte of the segment. -/
theorem advance_cons_cons (c c1 : Nat) (t : List Nat) (nx : List (List Nat)) :
    GWCursor.advance ⟨c :: c1 :: t, nx⟩ = ⟨c1 :: t, nx⟩ := by
  simp [GWCursor.advance]

/-- Fuel beyond the measure of the cursor does not change the tokenizer loop. -/
theorem hint_next_token_loop_fuel (f : Nat) : ∀ (g : Nat) (cu : GWCursor) (st : LexSt),
    cu.measure ≤ f → cu.measure ≤ g →
    hint_next_token_loop f cu st = hint_next_token_loop g cu st := by
  induction f with
  | zero =>
    intro g cu st hf _
    have h0 : cu.ptr = [] ∧ cu.next = [] := by
      rcases cu with ⟨p, nx⟩
      simp only [GWCursor.measure, Nat.le_zero, Nat.add_eq_zero, List.length_eq_zero] at hf
      exact ⟨hf.1.1, hf.2⟩
    cases g with
    | zero => rfl
    | succ g => rw [hint_next_token_loop_succ, if_pos h0]; rfl
  | succ f ih =>
    intro g cu st hf hg
    by_cases h0 : cu.ptr = [] ∧ cu.next = []
    · cases g with
      | zero => rw [hint_next_token_loop_succ, if_pos h0]; rfl
      | succ g => rw [hint_next_token_loop_succ, hint_next_token_loop_succ, if_pos h0, if_pos h0]
    · have hm := measure_advance cu h0
      cases g with
      | zero => omega
      | succ g =>
        rw [hint_next_token_loop_succ, hint_next_token_loop_succ, if_neg h0, if_neg h0]
        rw [ih g cu.advance _ (by omega) (by omega)]

/-- The tokenizer loop inside a word: the bytes of a word up to a delimiter
(`=` or whitespace) in the same segment are stored one by one, as long as the
word holds at most 99 bytes, and the loop stops with the cursor on the
delimiter. -/
theorem hint_next_token_loop_word (w : List Nat) :
    ∀ (acc : List Nat) (f d : Nat) (rest : List Nat) (nx : List (List Nat)),
    (∀ c ∈ w, c ≠ 0 ∧ c ≠ 39 ∧ c ≠ 61 ∧ isspace c = false) →
    acc.length ≤ 98 → acc.length + w.length ≤ 99 → w.length < f →
    (d = 61 ∨ isspace d = true) →
    (hint_next_token_loop f ⟨w ++ d :: rest, nx⟩ ⟨acc, true, false⟩).1
      = ⟨d :: rest, nx⟩ ∧
    (hint_next_token_loop f ⟨w ++ d :: rest, nx⟩ ⟨acc, true, false⟩).2.word
      = acc ++ w := by
  induction w with
  | nil =>
    intro acc f d rest nx _ _ _ hf hd
    obtain ⟨f, rfl⟩ : ∃ k, f = k + 1 := ⟨f - 1, by simp at hf; omega⟩
    rw [hint_next_token_loop_succ]
    rcases hd with hd | hd <;> simp [GWCursor.peek, hd]
  | cons c w ih =>
    intro acc f d rest nx hw hacc hlen hf hd
    obtain ⟨f, rfl⟩ : ∃ k, f = k + 1 := ⟨f - 1, by simp at hf; omega⟩
    have hc := hw c (List.mem_cons_self c w)
    have hadv : GWCursor.advance ⟨c :: (w ++ d :: rest), nx⟩ = ⟨w ++ d :: rest, nx⟩ := by
      cases w with
      | nil => exact advance_cons_cons c d rest nx
      | cons c1 w1 => exact advance_cons_cons c c1 _ nx
    simp only [List.length_cons] at hlen hf
    rw [hint_next_token_loop_succ]
    simp only [GWCursor.peek, List.headD_cons, List.cons_append, hadv]
    simp [hc.2.1, hc.2.2.1, hc.2.2.2]
    by_cases hcap : 98 < acc.length + 1
    · have hw0 : w = [] := List.length_eq_zero.1 (by omega)
      subst hw0
      simp [hcap]
    · simp only [hcap, if_false]
      have h := ih (acc ++ [c]) f d rest nx
        (fun x hx => hw x (List.mem_cons_of_mem c hx))
        (by simp; omega) (by simp; omega) (by omega) hd
      simpa using h

/-- A word free of NUL is the C string it spells. -/
theorem cstr_of_no_nul (w : List Nat) (h : ∀ c ∈ w, c ≠ 0) : cstr w = w := by
  unfold cstr
  rw [List.takeWhile_eq_self_iff]
  intro c hc
  simpa using h c hc

/-- The tokenizer loop never gains measure, and pays one unit of it for every
byte it stores in the word. -/
theorem hint_next_token_loop_measure (f : Nat) : ∀ (cu : GWCursor) (st : LexSt),
    (hint_next_token_loop f cu st).1.measure + (hint_next_token_loop f cu st).2.word.length
      ≤ cu.measure + st.word.length := by
  induction f with
  | zero => intro cu st; exact Nat.le_refl _
  | succ f ih =>
    intro cu st
    rw [hint_next_token_loop_succ]
    by_cases h0 : cu.ptr = [] ∧ cu.next = []
    · rw [if_pos h0]
    · rw [if_neg h0]
      have hm := measure_advance cu h0
      split_ifs <;>
        first
        | exact Nat.le_refl _
        | omega
        | (simp only [List.length_append, List.length_singleton]; omega)
        | (refine Nat.le_trans (ih _ _) ?_
           first
           | omega
           | (simp only [List.length_append, List.length_singleton]; omega))

/-- A token other than `TOK_EOL` costs the cursor one unit of measure at
least. -/
theorem hint_next_token_measure (cu : GWCursor)
    (h : (hint_next_token cu).1.token ≠ TOK_EOL) :
    (hint_next_token cu).2.measure < cu.measure := by
  have hm := hint_next_token_loop_measure cu.measure cu ⟨[], false, false⟩
  unfold hint_next_token at h ⊢
  by_cases hw : cstr (hint_next_token_loop cu.measure cu ⟨[], false, false⟩).2.word = []
  · simp [hw] at h
  · have hlen : 0 < (hint_next_token_loop cu.measure cu ⟨[], false, false⟩).2.word.length := by
      rcases hword : (hint_next_token_loop cu.measure cu ⟨[], false, false⟩).2.word with _ | ⟨a, l⟩
      · rw [hword] at hw; exact absurd rfl hw
      · simp
    simp only [hw, if_false]
    simp only [List.length_nil, Nat.add_zero] at hm
    omega

/-- One iteration of the grammar loop, as written in the source. -/
theorem hint_parser_loop_succ (fuel : Nat) (cu : GWCursor) (st : ParseSt) :
    hint_parser_loop (fuel + 1) cu st =
      if (hint_next_token cu).1.token = TOK_EOL then st
      else hint_parser_loop fuel (hint_next_token cu).2
        (hint_parser_step (hint_next_token cu).1 st) := rfl

/-- Fuel beyond the measure of the cursor does not change the grammar loop. -/
theorem hint_parser_loop_fuel (f : Nat) : ∀ (g : Nat) (cu : GWCursor) (st : ParseSt),
    cu.measure < f → cu.measure < g →
    hint_parser_loop f cu st = hint_parser_loop g cu st := by
  induction f with
  | zero => intro g cu st hf _; omega
  | succ f ih =>
    intro g cu st hf hg
    cases g with
    | zero => omega
    | succ g =>
      rw [hint_parser_loop_succ, hint_parser_loop_succ]
      by_cases he : (hint_next_token cu).1.token = TOK_EOL
      · rw [if_pos he, if_pos he]
      · rw [if_neg he, if_neg he]
        have hm := hint_next_token_measure cu he
        exact ih g _ _ (by omega) (by omega)

/-- A word that matches no keyword is classified as a STRING token. -/
theorem classify_name (n : List Nat)
    (h : ∀ k ∈ keywords, strcasecmp_eq n k.1 = false) :
    classify n = ⟨TOK_STRING, some n⟩ := by
  have e : keywords.find? (fun k => strcasecmp_eq n k.1) = none := by
    rw [List.find?_eq_none]
    intro k hk
    simp [h k hk]
  simp only [classify, e]

/-- Claim C9, evaluated on the code: with [RouteToMaster] active on the stack
and no registry entry for `nohints`, the comment `/* maxscale nohints start */`
pushes a frame with no hints (the `NULL` that the lookup returned), so the
stack grows by one frame and the statement, and those after it, lose the
hints that were active. The `#` form of the comment does the same. -/
theorem start_unknown_name_pushes_frame :
    lookup_named_hint ⟨[[RouteToMaster]], []⟩ (str "nohints") = [] ∧
    hint_parser_fn ⟨[[RouteToMaster]], []⟩ [str "select 1 /* maxscale nohints start */"]
      = ([], ⟨[[], [RouteToMaster]], []⟩) ∧
    hint_parser_fn ⟨[[RouteToMaster]], []⟩ [str "select 1 # maxscale nohints start"]
      = ([], ⟨[[], [RouteToMaster]], []⟩) ∧
    (hint_parser_fn ⟨[[], [RouteToMaster]], []⟩ [str "select 2"]).1 = [] := by
  refine ⟨?_, ?_, ?_, ?_⟩ <;> decide

/-- Claim C10, evaluated on the code: with `myhints` defined as [RouteToSlave],
the comment `/* maxscale myhints prepare route to master */` is not rejected:
it adds a second block of the same name in front of the first, and the lookup
of `myhints` then returns [RouteToMaster]. The `start` form of the same
definition is rejected and leaves the lookup at [RouteToSlave]. -/
theorem prepare_redefines_name :
    lookup_named_hint
        (hint_parser_fn ⟨[], [(str "myhints", [RouteToSlave])]⟩
          [str "select 1 /* maxscale myhints prepare route to master */"]).2
        (str "myhints") = [RouteToMaster] ∧
    (hint_parser_fn ⟨[], [(str "myhints", [RouteToSlave])]⟩
          [str "select 1 /* maxscale myhints prepare route to master */"]).2.named_hints
      = [(str "myhints", [RouteToMaster]), (str "myhints", [RouteToSlave])] ∧
    lookup_named_hint
        (hint_parser_fn ⟨[], [(str "myhints", [RouteToSlave])]⟩
          [str "select 1 /* maxscale myhints start route to master */"]).2
        (str "myhints") = [RouteToSlave] := by
  refine ⟨?_, ?_, ?_⟩ <;> decide

/-- A statement made of plain SQL and a `/*` comment with a non-empty body is
parsed from the first byte of the comment body. -/
theorem hint_parser_slash_star (session : HINT_SESSION) (p : List Nat) (c : Nat)
    (rest : List Nat) (hp : plain_sql p) :
    hint_parser_fn session [p ++ 47 :: 42 :: c :: rest]
      = hint_parser_body session ⟨c :: rest, []⟩ := by
  simp only [hint_parser_fn, find_comment_plain_slash_star p _ hp]
  rfl

/-- Claim C11 (Scenario E): for every session, after any SQL text without
comment opener, quote or backslash, the comment `/* maxscale stop */` removes
exactly the top frame of a non-empty stack (the frame below becomes the top)
and changes nothing when the stack is empty; the registry is unchanged, and
`hint_parser` returns a copy of the new top frame, or nothing if the stack is
now empty. -/
theorem stop_pops_top_frame (p : List Nat) (hp : plain_sql p)
    (top under : List HINT) (below : List (List HINT))
    (reg : List (List Nat × List HINT)) :
    hint_parser_fn ⟨[], reg⟩ [p ++ str "/* maxscale stop */"] = ([], ⟨[], reg⟩) ∧
    hint_parser_fn ⟨[top], reg⟩ [p ++ str "/* maxscale stop */"] = ([], ⟨[], reg⟩) ∧
    hint_parser_fn ⟨top :: under :: below, reg⟩ [p ++ str "/* maxscale stop */"]
      = (hint_dup under, ⟨under :: below, reg⟩) := by
  have hs : str "/* maxscale stop */" = 47 :: 42 :: 32 :: str "maxscale stop */" := by
    decide
  rw [hs]
  refine ⟨?_, ?_, ?_⟩ <;> rw [hint_parser_slash_star _ p _ _ hp] <;> rfl

/-- Witness of C11: two frames on the stack, the comment after `select 1 `. -/
theorem stop_pops_top_frame_witness :
    plain_sql (str "select 1 ") ∧
    hint_parser_fn ⟨[[RouteToSlave], [RouteToMaster]], []⟩
        [str "select 1 " ++ str "/* maxscale stop */"]
      = (hint_dup [RouteToMaster], ⟨[[RouteToMaster]], []⟩) :=
  have h : plain_sql (str "select 1 ") := by unfold plain_sql; decide
  ⟨h, (stop_pops_top_frame (str "select 1 ") h [RouteToSlave] [RouteToMaster] [] []).2.2⟩

/-- Claim C12, evaluated on the code: for every session the comment
`# maxscale start route to master` pushes nothing. `HS_INIT` has no case for
`TOK_START`, so the token is dropped, the mode stays `HM_EXECUTE` and the
hint [RouteToMaster] is returned for the statement itself; the stack and the
registry are those of before. The same holds for `begin`. -/
theorem anonymous_start_pushes_nothing (session : HINT_SESSION) :
    hint_parser_fn session [str "# maxscale start route to master"]
      = ([RouteToMaster], session) ∧
    hint_parser_fn session [str "# maxscale begin route to master"]
      = ([RouteToMaster], session) ∧
    hint_parser_step ⟨TOK_START, none⟩ (ParseSt.init session) = ParseSt.init session :=
  ⟨rfl, rfl, rfl⟩

/-- Claim C13, evaluated on the code: for every session the comment
`# maxscale route to slave x = 1` returns [RouteToSlave] alone. After
`TOK_SLAVE` the state is still `HS_ROUTE1`, where the tokens of `x = 1` are
dropped; written first, the parameter is kept. -/
theorem route_then_parameter_dropped (session : HINT_SESSION) :
    hint_parser_fn session [str "# maxscale route to slave x = 1"]
      = ([RouteToSlave], session) ∧
    (hint_parser_step ⟨TOK_SLAVE, none⟩
        { ParseSt.init session with state := HS_ROUTE1 }).state = HS_ROUTE1 ∧
    hint_parser_fn session [str "# maxscale x = 1 route to slave"]
      = ([Parameter (str "x") (str "1"), RouteToSlave], session) :=
  ⟨rfl, rfl, rfl⟩

/-- Claim C14, evaluated on the code: for every session the comment
`/* maxscale route to server db1 */` returns two hints, RouteToNamedServer
of `db1` and RouteToNamedServer of the closing `*/`: the case
`HS_ROUTE_SERVER` runs on into `HS_NAME` and never leaves its state. The `#`
form, where no token follows the name, returns the one hint. -/
theorem route_server_repeats (session : HINT_SESSION) :
    hint_parser_fn session [str "/* maxscale route to server db1 */"]
      = ([RouteToNamedServer (str "db1"), RouteToNamedServer (str "*/")], session) ∧
    (hint_parser_step ⟨TOK_STRING, some (str "db1")⟩
        { ParseSt.init session with state := HS_ROUTE_SERVER }).state = HS_ROUTE_SERVER ∧
    hint_parser_fn session [str "# maxscale route to server db1"]
      = ([RouteToNamedServer (str "db1")], session) :=
  ⟨rfl, rfl, rfl⟩

/-- Claim C18, evaluated on the code: the quoted word `' a b'` gives the word
`a b`. The space after the opening quote is dropped, because whitespace met
while `inword` is 0 is skipped whether or not a quote is open; only the
whitespace after the first stored byte is kept. A quoted word of whitespace
alone gives no word at all. -/
theorem quoted_leading_space_dropped :
    hint_next_token ⟨str "' a b'", []⟩
      = (⟨TOK_STRING, some (str "a b")⟩, ⟨[], []⟩) ∧
    hint_next_token ⟨str "'a  b '", []⟩
      = (⟨TOK_STRING, some (str "a  b ")⟩, ⟨[], []⟩) ∧
    hint_next_token ⟨str "' '", []⟩ = (⟨TOK_EOL, none⟩, ⟨[], []⟩) := by
  refine ⟨?_, ?_, ?_⟩ <;> decide

/-- The tokenizer loop, entered with at most 98 bytes in `word`, leaves at most
99 bytes in it. -/
theorem hint_next_token_loop_word_bound (f : Nat) : ∀ (cu : GWCursor) (st : LexSt),
    st.word.length ≤ 98 → (hint_next_token_loop f cu st).2.word.length ≤ 99 := by
  induction f with
  | zero => intro cu st h; simp only [hint_next_token_loop]; omega
  | succ f ih =>
    intro cu st h
    rw [hint_next_token_loop_succ]
    split_ifs <;>
      first
      | omega
      | (simp only [List.length_append, List.length_singleton] at *; omega)
      | (apply ih; omega)

/-- Claim C20: for every input `hint_next_token` stores at most 99 bytes in
its 100-byte buffer `word`: a byte is stored only while fewer than 99 are held
(so at an index of at most 98), the terminator is written at an index of at
most 99, and the word of every token returned has at most 99 bytes. -/
theorem word_buffer_bound (cu : GWCursor) :
    (∀ (f : Nat) (cv : GWCursor) (st : LexSt), st.word.length ≤ 98 →
      (hint_next_token_loop f cv st).2.word.length ≤ 99) ∧
    (hint_next_token_loop cu.measure cu ⟨[], false, false⟩).2.word.length < 100 ∧
    (∀ w, (hint_next_token cu).1.value = some w → w.length ≤ 99) := by
  have hb := hint_next_token_loop_word_bound cu.measure cu ⟨[], false, false⟩
    (by simp)
  refine ⟨fun f cv st h => hint_next_token_loop_word_bound f cv st h, by omega, ?_⟩
  intro w hw
  have hc : (cstr (hint_next_token_loop cu.measure cu ⟨[], false, false⟩).2.word).length
      ≤ 99 := by
    refine Nat.le_trans ?_ hb
    exact (List.takeWhile_sublist _).length_le
  unfold hint_next_token at hw
  by_cases he : cstr (hint_next_token_loop cu.measure cu ⟨[], false, false⟩).2.word = []
  · simp [he] at hw
  · simp only [he, if_false, classify] at hw
    split at hw
    · simp at hw
    · simp only [Option.some.injEq] at hw
      rw [← hw]; exact hc

set_option maxRecDepth 100000 in
/-- Witness of C20: a run of 120 bytes without delimiter is cut after 99. -/
theorem word_buffer_bound_witness :
    ((hint_next_token_loop 200 ⟨List.replicate 120 97, []⟩ ⟨[], false, false⟩).2.word.length
      ≤ 99) ∧
    (hint_next_token ⟨List.replicate 120 97, []⟩).1.value = some (List.replicate 99 97) :=
  ⟨(word_buffer_bound ⟨List.replicate 120 97, []⟩).1 200 ⟨List.replicate 120 97, []⟩
      ⟨[], false, false⟩ (by decide), by decide⟩

/-- The tokenizer loop inside a word that runs to the end of the input. -/
theorem hint_next_token_loop_word_end (w : List Nat) :
    ∀ (acc : List Nat) (f : Nat),
    (∀ c ∈ w, c ≠ 0 ∧ c ≠ 39 ∧ c ≠ 61 ∧ isspace c = false) →
    acc.length ≤ 98 → acc.length + w.length ≤ 99 → w.length ≤ f →
    (hint_next_token_loop f ⟨w, []⟩ ⟨acc, true, false⟩).1 = ⟨[], []⟩ ∧
    (hint_next_token_loop f ⟨w, []⟩ ⟨acc, true, false⟩).2.word = acc ++ w := by
  induction w with
  | nil =>
    intro acc f _ _ _ _
    cases f with
    | zero => simp [hint_next_token_loop]
    | succ f => rw [hint_next_token_loop_succ]; simp
  | cons c w ih =>
    intro acc f hw hacc hlen hf
    obtain ⟨f, rfl⟩ : ∃ k, f = k + 1 := ⟨f - 1, by simp at hf; omega⟩
    have hc := hw c (List.mem_cons_self c w)
    have hadv : GWCursor.advance ⟨c :: w, []⟩ = ⟨w, []⟩ := by
      cases w <;> simp [GWCursor.advance]
    simp only [List.length_cons] at hlen hf
    rw [hint_next_token_loop_succ]
    simp only [GWCursor.peek, List.headD_cons, hadv]
    simp [hc.2.1, hc.2.2.1, hc.2.2.2]
    by_cases hcap : 98 < acc.length + 1
    · have hw0 : w = [] := List.length_eq_zero.1 (by omega)
      subst hw0
      simp [hcap]
    · simp only [hcap, if_false]
      have h := ih (acc ++ [c]) f
        (fun x hx => hw x (List.mem_cons_of_mem c hx))
        (by simp; omega) (by simp; omega) (by omega)
      simpa using h

/-- The tokenizer on a word of at most 99 bytes followed by a delimiter in the
same segment. -/
theorem hint_next_token_word (w : List Nat) (d : Nat)
    (rest : List Nat) (nx : List (List Nat))
    (hw : ∀ c ∈ w, c ≠ 0 ∧ c ≠ 39 ∧ c ≠ 61 ∧ isspace c = false)
    (hne : w ≠ []) (hlen : w.length ≤ 99) (hd : d = 61 ∨ isspace d = true) :
    hint_next_token ⟨w ++ d :: rest, nx⟩ = (classify w, ⟨d :: rest, nx⟩) := by
  obtain ⟨c, w1, rfl⟩ : ∃ c w1, w = c :: w1 := by
    cases w with
    | nil => exact absurd rfl hne
    | cons c w1 => exact ⟨c, w1, rfl⟩
  have hc := hw c (List.mem_cons_self c w1)
  obtain ⟨f, hf, hf2⟩ : ∃ f, GWCursor.measure ⟨c :: w1 ++ d :: rest, nx⟩
      = f + 1 ∧ w1.length < f :=
    ⟨GWCursor.measure ⟨c :: w1 ++ d :: rest, nx⟩ - 1,
      by simp [GWCursor.measure]; omega, by simp [GWCursor.measure]; omega⟩
  have hstep : hint_next_token_loop (GWCursor.measure ⟨c :: w1 ++ d :: rest, nx⟩)
      ⟨c :: w1 ++ d :: rest, nx⟩ ⟨[], false, false⟩
      = hint_next_token_loop f ⟨w1 ++ d :: rest, nx⟩ ⟨[c], true, false⟩ := by
    rw [hf, hint_next_token_loop_succ]
    have hadv : GWCursor.advance ⟨c :: (w1 ++ d :: rest), nx⟩ = ⟨w1 ++ d :: rest, nx⟩ := by
      cases w1 with
      | nil => exact advance_cons_cons c d rest nx
      | cons c1 w2 => exact advance_cons_cons c c1 _ nx
    simp only [List.cons_append, GWCursor.peek, List.headD_cons, hadv]
    simp [hc.2.1, hc.2.2.1, hc.2.2.2]
  obtain ⟨h1, h2⟩ := hint_next_token_loop_word w1 [c] f d rest nx
    (fun x hx => hw x (List.mem_cons_of_mem c hx))
    (by simp) (by simp at hlen ⊢; omega) hf2 hd
  have hcs : cstr (c :: w1) = c :: w1 := cstr_of_no_nul _ (fun x hx => (hw x hx).1)
  simp only [hint_next_token, hstep, h1, h2, List.singleton_append, hcs]
  simp

/-- The tokenizer on a word of at most 99 bytes that ends the input. -/
theorem hint_next_token_word_end (w : List Nat)
    (hw : ∀ c ∈ w, c ≠ 0 ∧ c ≠ 39 ∧ c ≠ 61 ∧ isspace c = false)
    (hne : w ≠ []) (hlen : w.length ≤ 99) :
    hint_next_token ⟨w, []⟩ = (classify w, ⟨[], []⟩) := by
  obtain ⟨c, w1, rfl⟩ : ∃ c w1, w = c :: w1 := by
    cases w with
    | nil => exact absurd rfl hne
    | cons c w1 => exact ⟨c, w1, rfl⟩
  have hc := hw c (List.mem_cons_self c w1)
  have hm : GWCursor.measure ⟨c :: w1, []⟩ = w1.length + 1 := by
    simp [GWCursor.measure]
  have hstep : hint_next_token_loop (GWCursor.measure ⟨c :: w1, []⟩)
      ⟨c :: w1, []⟩ ⟨[], false, false⟩
      = hint_next_token_loop w1.length ⟨w1, []⟩ ⟨[c], true, false⟩ := by
    rw [hm, hint_next_token_loop_succ]
    have hadv : GWCursor.advance ⟨c :: w1, []⟩ = ⟨w1, []⟩ := by
      cases w1 <;> simp [GWCursor.advance]
    simp only [GWCursor.peek, List.headD_cons, hadv]
    simp [hc.2.1, hc.2.2.1, hc.2.2.2]
  obtain ⟨h1, h2⟩ := hint_next_token_loop_word_end w1 [c] w1.length
    (fun x hx => hw x (List.mem_cons_of_mem c hx))
    (by simp) (by simp at hlen ⊢; omega) (Nat.le_refl _)
  have hcs : cstr (c :: w1) = c :: w1 := cstr_of_no_nul _ (fun x hx => (hw x hx).1)
  simp only [hint_next_token, hstep, h1, h2, List.singleton_append, hcs]
  simp

/-- A byte whose lower-case form is a lower-case letter is a letter, hence no
NUL, quote, `=` or whitespace. -/
theorem letter_of_tolower (c : Nat) (h : 97 ≤ tolower c ∧ tolower c ≤ 122) :
    c ≠ 0 ∧ c ≠ 39 ∧ c ≠ 61 ∧ isspace c = false := by
  unfold tolower at h
  have hr : (65 ≤ c ∧ c ≤ 90) ∨ (97 ≤ c ∧ c ≤ 122) := by
    split_ifs at h with h1
    · exact Or.inl h1
    · exact Or.inr h
  refine ⟨by omega, by omega, by omega, ?_⟩
  simp only [isspace, Bool.or_eq_false_iff, beq_eq_false_iff_ne, ne_eq,
    Bool.and_eq_false_iff, decide_eq_false_iff_not]
  exact ⟨by omega, by omega⟩

/-- A spelling of a reserved word, in any mix of cases, is classified as the
token of that word. -/
theorem classify_reserved (k : List Nat × TOKEN_VALUE) (hk : k ∈ reserved_words)
    (w : List Nat) (hw : w.map tolower = k.1) : classify w = ⟨k.2, none⟩ := by
  simp only [classify, strcasecmp_eq, hw]
  simp only [reserved_words, List.mem_cons, List.mem_singleton, List.not_mem_nil,
    or_false] at hk
  rcases hk with h | h | h | h | h | h | h | h | h | h | h <;> subst h <;> rfl

/-- A word without `=` that matches no reserved word matches no entry of the
keyword table. -/
theorem no_keyword_of_no_reserved (w : List Nat) (h61 : 61 ∉ w)
    (h : ∀ k ∈ reserved_words, strcasecmp_eq w k.1 = false) :
    ∀ k ∈ keywords, strcasecmp_eq w k.1 = false := by
  intro k hk
  have hcases : k ∈ reserved_words ∨ k.1 = [61] := by
    revert k; decide
  rcases hcases with hr | he
  · exact h k hr
  · rw [he]
    simp only [strcasecmp_eq, beq_eq_false_iff_ne, ne_eq]
    intro hm
    rcases w with _ | ⟨c, _ | ⟨c1, t⟩⟩
    · simp at hm
    · simp only [List.map_cons, List.map_nil, List.cons.injEq, and_true] at hm
      have h1 : tolower 61 = 61 := by decide
      rw [h1] at hm
      have hc : c = 61 := by
        unfold tolower at hm
        split_ifs at hm <;> omega
      exact h61 (by simp [hc])
    · simp at hm

/-- Claim C15: for every reserved word and every spelling of it in upper and
lower case, `hint_next_token` applied to the word, followed by whitespace or by
the end of the input, returns the token of the word and no word value (`begin`
gives TOK_START, `end` gives TOK_STOP); a word that matches no reserved word
when case is ignored gives a STRING token that carries the word. -/
theorem keyword_tokens_ignore_case :
    (∀ k ∈ reserved_words, ∀ w : List Nat, w.map tolower = k.1 →
      (∀ (d : Nat) (rest : List Nat) (nx : List (List Nat)), isspace d = true →
        hint_next_token ⟨w ++ d :: rest, nx⟩ = (⟨k.2, none⟩, ⟨d :: rest, nx⟩)) ∧
      hint_next_token ⟨w, []⟩ = (⟨k.2, none⟩, ⟨[], []⟩)) ∧
    (∀ w : List Nat, w ≠ [] → w.length ≤ 99 →
      (∀ c ∈ w, c ≠ 0 ∧ c ≠ 39 ∧ c ≠ 61 ∧ isspace c = false) →
      (∀ k ∈ reserved_words, strcasecmp_eq w k.1 = false) →
      (∀ (d : Nat) (rest : List Nat) (nx : List (List Nat)), isspace d = true →
        hint_next_token ⟨w ++ d :: rest, nx⟩
          = (⟨TOK_STRING, some w⟩, ⟨d :: rest, nx⟩)) ∧
      hint_next_token ⟨w, []⟩ = (⟨TOK_STRING, some w⟩, ⟨[], []⟩)) := by
  have hall : ∀ k ∈ reserved_words,
      (∀ x ∈ k.1, 97 ≤ x ∧ x ≤ 122) ∧ 0 < k.1.length ∧ k.1.length ≤ 99 := by
    decide
  constructor
  · intro k hk w hw
    have hletters := (hall k hk).1
    have hklen := (hall k hk).2
    have hbytes : ∀ c ∈ w, c ≠ 0 ∧ c ≠ 39 ∧ c ≠ 61 ∧ isspace c = false := by
      intro c hc
      apply letter_of_tolower
      apply hletters
      rw [← hw]
      exact List.mem_map_of_mem tolower hc
    have hlen : w.length = k.1.length := by rw [← hw, List.length_map]
    have hne : w ≠ [] := by
      intro h0; rw [h0] at hlen; simp at hlen; omega
    have hcl := classify_reserved k hk w hw
    refine ⟨?_, ?_⟩
    · intro d rest nx hd
      rw [hint_next_token_word w d rest nx hbytes hne (by omega) (Or.inr hd), hcl]
    · rw [hint_next_token_word_end w hbytes hne (by omega), hcl]
  · intro w hne hlen hbytes hres
    have hcl := classify_name w
      (no_keyword_of_no_reserved w (fun h => (hbytes 61 h).2.2.1 rfl) hres)
    refine ⟨?_, ?_⟩
    · intro d rest nx hd
      rw [hint_next_token_word w d rest nx hbytes hne hlen (Or.inr hd), hcl]
    · rw [hint_next_token_word_end w hbytes hne hlen, hcl]

/-- Witness of C15: `BeGiN` at the end of the input is the START token, and
`EnD` before a space is the STOP token. -/
theorem keyword_tokens_ignore_case_witness :
    hint_next_token ⟨str "BeGiN", []⟩ = (⟨TOK_START, none⟩, ⟨[], []⟩) ∧
    hint_next_token ⟨str "EnD" ++ 32 :: str "x", []⟩
      = (⟨TOK_STOP, none⟩, ⟨32 :: str "x", []⟩) :=
  ⟨(keyword_tokens_ignore_case.1 (str "begin", TOK_START) (by decide)
      (str "BeGiN") (by decide)).2,
   (keyword_tokens_ignore_case.1 (str "end", TOK_STOP) (by decide)
      (str "EnD") (by decide)).1 32 (str "x") [] (by decide)⟩

/-- The scan of a segment made of two parts. -/
theorem scan_segment_append (p : List Nat) : ∀ (q : List Nat) (st : ScanSt),
    scan_segment (p ++ q) st =
      match scan_segment p st with
      | Sum.inl st1 => scan_segment q st1
      | Sum.inr r => Sum.inr (r ++ q) := by
  induction p with
  | nil => intro q st; rfl
  | cons c cs ih =>
    intro q st
    simp only [List.cons_append, scan_segment]
    cases h : scan_byte c st with
    | none => rfl
    | some st1 => exact ih q st1

/-- The comment locator finds in the joined text what it finds in the chain. -/
theorem find_comment_flatten (segs : List (List Nat)) : ∀ (st : ScanSt),
    find_comment [segs.flatten] st = (find_comment segs st).map GWCursor.flat := by
  induction segs with
  | nil => intro st; rfl
  | cons seg more ih =>
    intro st
    have h := ih
    simp only [find_comment, List.flatten_cons, scan_segment_append] at h ⊢
    cases hs : scan_segment seg st with
    | inr r => simp [GWCursor.flat]
    | inl st1 =>
      simp only [hs]
      have h1 := h st1
      cases hm : scan_segment more.flatten st1 with
      | inr r => rw [hm] at h1; exact h1
      | inl st2 => rw [hm] at h1; exact h1

/-- The scan of a segment stops on a byte: what it reports as found is not
empty. -/
theorem scan_segment_found (p : List Nat) : ∀ (st : ScanSt) (r : List Nat),
    scan_segment p st = Sum.inr r → r ≠ [] := by
  induction p with
  | nil => intro st r h; simp [scan_segment] at h
  | cons c cs ih =>
    intro st r h
    simp only [scan_segment] at h
    cases hb : scan_byte c st with
    | none =>
      rw [hb] at h
      simp only [Sum.inr.injEq] at h
      rw [← h]; simp
    | some st1 =>
      rw [hb] at h
      exact ih st1 r h

/-- The cursor on a comment opener found in a chain of non-empty segments. -/
theorem find_comment_found (segs : List (List Nat)) : ∀ (st : ScanSt) (cu : GWCursor),
    (∀ s ∈ segs, s ≠ []) → find_comment segs st = some cu →
    cu.ptr ≠ [] ∧ ∀ s ∈ cu.next, s ≠ [] := by
  induction segs with
  | nil => intro st cu _ h; simp [find_comment] at h
  | cons seg more ih =>
    intro st cu hne h
    simp only [find_comment] at h
    cases hs : scan_segment seg st with
    | inr r =>
      rw [hs] at h
      simp only [Option.some.injEq] at h
      subst h
      exact ⟨scan_segment_found seg st r hs,
        fun s hs1 => hne s (List.mem_cons_of_mem _ hs1)⟩
    | inl st1 =>
      rw [hs] at h
      exact ih st1 cu (fun s hs1 => hne s (List.mem_cons_of_mem _ hs1)) h

/-- Entering the comment commutes with joining the segments. -/
theorem enter_comment_flat (cu : GWCursor) (hp : cu.ptr ≠ [])
    (hn : ∀ s ∈ cu.next, s ≠ []) :
    enter_comment cu.flat = (enter_comment cu).map GWCursor.flat ∧
    ∀ cu1, enter_comment cu = some cu1 → cu1.wf := by
  rcases cu with ⟨p, nx⟩
  rcases p with _ | ⟨c, _ | ⟨c1, t⟩⟩
  · exact absurd rfl hp
  · rcases nx with _ | ⟨b, bs⟩
    · simp [enter_comment, GWCursor.flat]
    · have hb : b ≠ [] := hn b (List.mem_cons_self _ _)
      obtain ⟨b0, b1, rfl⟩ : ∃ b0 b1, b = b0 :: b1 := by
        cases b with
        | nil => exact absurd rfl hb
        | cons b0 b1 => exact ⟨b0, b1, rfl⟩
      refine ⟨by simp [enter_comment, GWCursor.flat], ?_⟩
      intro cu1 h1
      simp only [enter_comment, List.tail_cons, Option.some.injEq] at h1
      subst h1
      exact ⟨fun s hs => hn s (List.mem_cons_of_mem _ hs), fun h => by simp at h⟩
  · refine ⟨by simp [enter_comment, GWCursor.flat], ?_⟩
    intro cu1 h1
    simp only [enter_comment, List.tail_cons, Option.some.injEq] at h1
    subst h1
    exact ⟨hn, fun h => by simp at h⟩

/-- Moving the cursor on commutes with joining the segments. -/
theorem advance_flat (cu : GWCursor) (h : cu.wf) :
    cu.flat.advance = cu.advance.flat ∧ cu.advance.wf := by
  rcases cu with ⟨p, nx⟩
  obtain ⟨hn, hp⟩ := h
  rcases p with _ | ⟨c, _ | ⟨c1, t⟩⟩
  · have : nx = [] := hp rfl
    subst this
    exact ⟨rfl, by simp [GWCursor.wf, GWCursor.advance]⟩
  · rcases nx with _ | ⟨b, bs⟩
    · exact ⟨rfl, by simp [GWCursor.wf, GWCursor.advance]⟩
    · have hb : b ≠ [] := hn b (List.mem_cons_self _ _)
      refine ⟨?_, ?_⟩
      · simp only [GWCursor.flat, GWCursor.advance, List.tail_cons, List.flatten_cons,
          List.singleton_append]
        cases hx : b ++ bs.flatten <;> rfl
      · simp only [GWCursor.advance, List.tail_cons]
        exact ⟨fun s hs => hn s (List.mem_cons_of_mem _ hs), fun h0 => absurd h0 hb⟩
  · refine ⟨?_, ?_⟩
    · simp [GWCursor.flat, GWCursor.advance]
    · simp only [GWCursor.advance, List.tail_cons]
      exact ⟨hn, fun h0 => by simp at h0⟩

/-- The tokenizer loop on the joined text runs in step with the loop on the
chain of non-empty segments. -/
theorem hint_next_token_loop_flat (f : Nat) : ∀ (cu : GWCursor) (st : LexSt), cu.wf →
    hint_next_token_loop f cu.flat st
      = ((hint_next_token_loop f cu st).1.flat, (hint_next_token_loop f cu st).2) ∧
    (hint_next_token_loop f cu st).1.wf := by
  induction f with
  | zero => intro cu st h; exact ⟨rfl, h⟩
  | succ f ih =>
    intro cu st h
    by_cases h0 : cu.ptr = [] ∧ cu.next = []
    · have hf : cu.flat.ptr = [] ∧ cu.flat.next = [] := by
        simp [GWCursor.flat, h0.1, h0.2]
      rw [hint_next_token_loop_succ, hint_next_token_loop_succ, if_pos h0, if_pos hf]
      exact ⟨rfl, h⟩
    · have hp : cu.ptr ≠ [] := fun hp => h0 ⟨hp, h.2 hp⟩
      have hf : ¬ (cu.flat.ptr = [] ∧ cu.flat.next = []) := by
        simp [GWCursor.flat, hp]
      have hpeek : cu.flat.peek = cu.peek := by
        rcases cu with ⟨p, nx⟩
        cases p with
        | nil => exact absurd rfl hp
        | cons c t => rfl
      obtain ⟨hadv, hadvwf⟩ := advance_flat cu h
      rw [hint_next_token_loop_succ, hint_next_token_loop_succ, if_neg h0, if_neg hf,
        hpeek, hadv]
      split_ifs <;>
        first
        | exact ⟨rfl, h⟩
        | exact ⟨rfl, hadvwf⟩
        | exact ih _ _ hadvwf

/-- The measure of the joined cursor is the number of bytes left, which the
measure of the chain bounds. -/
theorem measure_flat (cu : GWCursor) : cu.flat.measure ≤ cu.measure := by
  simp [GWCursor.flat, GWCursor.measure, List.length_flatten]

/-- The tokenizer returns the same token on the joined text as on the chain of
non-empty segments, and leaves the cursor at the same place. -/
theorem hint_next_token_flat (cu : GWCursor) (h : cu.wf) :
    hint_next_token cu.flat = ((hint_next_token cu).1, (hint_next_token cu).2.flat) ∧
    (hint_next_token cu).2.wf := by
  have hfuel := hint_next_token_loop_fuel cu.flat.measure cu.measure cu.flat
    ⟨[], false, false⟩ (Nat.le_refl _) (measure_flat cu)
  obtain ⟨h1, h2⟩ := hint_next_token_loop_flat cu.measure cu ⟨[], false, false⟩ h
  constructor
  · simp only [hint_next_token, hfuel, h1]
    split_ifs <;> rfl
  · simp only [hint_next_token]
    split_ifs <;> exact h2

/-- The grammar loop on the joined text runs in step with the loop on the chain
of non-empty segments. -/
theorem hint_parser_loop_flat (f : Nat) : ∀ (cu : GWCursor) (st : ParseSt), cu.wf →
    hint_parser_loop f cu.flat st = hint_parser_loop f cu st := by
  induction f with
  | zero => intro cu st _; rfl
  | succ f ih =>
    intro cu st h
    obtain ⟨h1, h2⟩ := hint_next_token_flat cu h
    rw [hint_parser_loop_succ, hint_parser_loop_succ, h1]
    split_ifs
    · rfl
    · exact ih _ _ h2

/-- The comment body is parsed alike on the joined text and on the chain of
non-empty segments. -/
theorem hint_parser_body_flat (session : HINT_SESSION) (cu : GWCursor) (h : cu.wf) :
    hint_parser_body session cu.flat = hint_parser_body session cu := by
  obtain ⟨h1, h2⟩ := hint_next_token_flat cu h
  have hm := measure_flat (hint_next_token cu).2
  have hl : hint_parser_loop ((hint_next_token cu).2.flat.measure + 1)
        (hint_next_token cu).2.flat (ParseSt.init session)
      = hint_parser_loop ((hint_next_token cu).2.measure + 1)
        (hint_next_token cu).2 (ParseSt.init session) := by
    rw [hint_parser_loop_fuel _ ((hint_next_token cu).2.measure + 1) _ _
      (by omega) (by omega)]
    exact hint_parser_loop_flat _ _ _ h2
  simp only [hint_parser_body, h1, hl]

/-- Claim C16: segment boundaries are transparent. For every session and every
chain of non-empty segments, `hint_parser` returns the same hints and leaves
the same session (stack and registry) as it does when the joined text is
presented as a single segment. -/
theorem segments_transparent (session : HINT_SESSION) (segs : List (List Nat))
    (hne : ∀ s ∈ segs, s ≠ []) :
    hint_parser_fn session segs = hint_parser_fn session [segs.flatten] := by
  have hf := find_comment_flatten segs ScanSt.init
  simp only [hint_parser_fn, hf]
  cases hc : find_comment segs ScanSt.init with
  | none => rfl
  | some cu0 =>
    obtain ⟨hp, hn⟩ := find_comment_found segs ScanSt.init cu0 hne hc
    obtain ⟨he, hwf⟩ := enter_comment_flat cu0 hp hn
    simp only [Option.map_some', he]
    cases h1 : enter_comment cu0 with
    | none => rfl
    | some cu1 =>
      simp only [Option.map_some']
      exact (hint_parser_body_flat session cu1 (hwf cu1 h1)).symm

/-- Witness of C16: the text `select 1 # maxscale x = 1` cut inside the opener
position, inside the keyword and inside the parameter. -/
theorem segments_transparent_witness :
    hint_parser_fn ⟨[], []⟩ [str "select 1 #", str " max", str "scale x ", str "= 1"]
      = hint_parser_fn ⟨[], []⟩ [str "select 1 # maxscale x = 1"] ∧
    hint_parser_fn ⟨[], []⟩ [str "select 1 # maxscale x = 1"]
      = ([Parameter (str "x") (str "1")], ⟨[], []⟩) :=
  ⟨segments_transparent ⟨[], []⟩
      [str "select 1 #", str " max", str "scale x ", str "= 1"] (by decide),
   by decide⟩

/-- The grammar loop applies `hint_parser_step` to the tokens of the stream,
one iteration per token. -/
theorem hint_parser_loop_eq_foldl (f : Nat) : ∀ (cu : GWCursor) (st : ParseSt),
    hint_parser_loop f cu st
      = (token_stream f cu).foldl (fun s t => hint_parser_step t s) st := by
  induction f with
  | zero => intro cu st; rfl
  | succ f ih =>
    intro cu st
    rw [hint_parser_loop_succ]
    simp only [token_stream]
    split_ifs
    · rfl
    · simp only [List.foldl_cons]
      exact ih _ _

/-- The joined cursor has as many units of measure as the chain has bytes. -/
theorem measure_flat_eq_bytes (cu : GWCursor) : cu.flat.measure = cu.bytes := by
  simp [GWCursor.flat, GWCursor.measure, GWCursor.bytes, List.length_flatten]

/-- In a chain of non-empty segments a token other than `TOK_EOL` takes at
least one byte. -/
theorem hint_next_token_bytes (cu : GWCursor) (h : cu.wf)
    (ht : (hint_next_token cu).1.token ≠ TOK_EOL) :
    (hint_next_token cu).2.bytes < cu.bytes := by
  obtain ⟨h1, _⟩ := hint_next_token_flat cu h
  have hm := hint_next_token_measure cu.flat (by rw [h1]; exact ht)
  rw [h1] at hm
  simp only [measure_flat_eq_bytes] at hm
  exact hm

/-- The grammar loop reads at most as many tokens as the measure allows. -/
theorem token_stream_length_measure (f : Nat) : ∀ (cu : GWCursor),
    (token_stream f cu).length ≤ cu.measure := by
  induction f with
  | zero => intro cu; simp [token_stream]
  | succ f ih =>
    intro cu
    simp only [token_stream]
    split_ifs with he
    · simp
    · have hm := hint_next_token_measure cu he
      have := ih (hint_next_token cu).2
      simp only [List.length_cons]
      omega

/-- In a chain of non-empty segments the grammar loop reads at most as many
tokens as there are bytes. -/
theorem token_stream_length_bytes (f : Nat) : ∀ (cu : GWCursor), cu.wf →
    (token_stream f cu).length ≤ cu.bytes := by
  induction f with
  | zero => intro cu _; simp [token_stream]
  | succ f ih =>
    intro cu h
    simp only [token_stream]
    split_ifs with he
    · simp
    · have hm := hint_next_token_bytes cu h he
      have := ih (hint_next_token cu).2 (hint_next_token_flat cu h).2
      simp only [List.length_cons]
      omega

/-- Claim C17: `hint_parser` terminates on every session and statement. Every
call of `hint_next_token` that returns a token other than `TOK_EOL` moves the
cursor on (by at least one byte in a chain of non-empty segments), so the
grammar loop runs at most as many iterations as there are bytes after the
cursor, and neither the tokenizer loop nor the grammar loop changes its result
when it is given more fuel than the measure of the cursor. -/
theorem hint_parser_loop_terminates (cu : GWCursor) :
    ((hint_next_token cu).1.token ≠ TOK_EOL →
      (hint_next_token cu).2.measure < cu.measure) ∧
    (cu.wf → (hint_next_token cu).1.token ≠ TOK_EOL →
      (hint_next_token cu).2.bytes < cu.bytes) ∧
    (∀ f, (token_stream f cu).length ≤ cu.measure) ∧
    (cu.wf → ∀ f, (token_stream f cu).length ≤ cu.bytes) ∧
    (∀ f st, hint_parser_loop f cu st
      = (token_stream f cu).foldl (fun s t => hint_parser_step t s) st) ∧
    (∀ f st, cu.measure < f →
      hint_parser_loop f cu st = hint_parser_loop (cu.measure + 1) cu st) ∧
    (∀ f st, cu.measure ≤ f →
      hint_next_token_loop f cu st = hint_next_token_loop cu.measure cu st) :=
  ⟨hint_next_token_measure cu,
   hint_next_token_bytes cu,
   fun f => token_stream_length_measure f cu,
   fun h f => token_stream_length_bytes f cu h,
   fun f st => hint_parser_loop_eq_foldl f cu st,
   fun f st h => hint_parser_loop_fuel f (cu.measure + 1) cu st h (Nat.lt_succ_self _),
   fun f st h => hint_next_token_loop_fuel f cu.measure cu st h (Nat.le_refl _)⟩

/-- Witness of C17: the comment body ` maxscale route to master` of 25 bytes,
cut in two segments, yields 4 tokens, and the first token takes 9 bytes. -/
theorem hint_parser_loop_terminates_witness :
    GWCursor.wf ⟨str " maxscale ro", [str "ute to master"]⟩ ∧
    (hint_next_token ⟨str " maxscale ro", [str "ute to master"]⟩).2.bytes
      < GWCursor.bytes ⟨str " maxscale ro", [str "ute to master"]⟩ ∧
    (token_stream 1000 ⟨str " maxscale ro", [str "ute to master"]⟩).length ≤ 25 :=
  have hwf : GWCursor.wf ⟨str " maxscale ro", [str "ute to master"]⟩ := by
    unfold GWCursor.wf; decide
  have h := hint_parser_loop_terminates ⟨str " maxscale ro", [str "ute to master"]⟩
  ⟨hwf, h.2.1 hwf (by decide), h.2.2.2.1 hwf 1000⟩

/-- The block `retblock` returns the session it is given. -/
theorem retblock_session (session : HINT_SESSION) (rval : List HINT) :
    (retblock session rval).2 = session := by
  unfold retblock
  split_ifs
  · cases session.stack <;> rfl
  · rfl

/-- One grammar step on a token that is no directive keeps the session, the
mode `HM_EXECUTE` and stays out of `HS_PREPARE`. -/
theorem hint_parser_step_no_directive (session : HINT_SESSION) (t : HINT_TOKEN)
    (st : ParseSt) (ht : no_directive t)
    (h : st.session = session ∧ st.mode = HM_EXECUTE ∧ st.state ≠ HS_PREPARE) :
    (hint_parser_step t st).session = session ∧
    (hint_parser_step t st).mode = HM_EXECUTE ∧
    (hint_parser_step t st).state ≠ HS_PREPARE := by
  rcases st with ⟨se, state, rval, pname, lvalue, hintname, mode⟩
  rcases t with ⟨tk, v⟩
  obtain ⟨h1, h2, h3⟩ := h
  obtain ⟨t1, t2, t3⟩ := ht
  simp only at h1 h2 h3 t1 t2 t3
  subst h1 h2
  cases state <;> cases tk <;>
    simp_all [hint_parser_step, name_case]

/-- The grammar loop over tokens that are no directives keeps the session and
the mode `HM_EXECUTE`. -/
theorem foldl_no_directive (session : HINT_SESSION) (ts : List HINT_TOKEN) :
    ∀ (st : ParseSt), (∀ t ∈ ts, no_directive t) →
    st.session = session ∧ st.mode = HM_EXECUTE ∧ st.state ≠ HS_PREPARE →
    (ts.foldl (fun s t => hint_parser_step t s) st).session = session ∧
    (ts.foldl (fun s t => hint_parser_step t s) st).mode = HM_EXECUTE := by
  induction ts with
  | nil => intro st _ h; exact ⟨h.1, h.2.1⟩
  | cons t ts ih =>
    intro st ht h
    simp only [List.foldl_cons]
    exact ih _ (fun x hx => ht x (List.mem_cons_of_mem _ hx))
      (hint_parser_step_no_directive session t st (ht t (List.mem_cons_self _ _)) h)

/-- Claim C19: for every session and every statement, if the token stream of
the statement's comment holds no STOP, START or PREPARE token, `hint_parser`
leaves the session (stack and registry) unchanged, whatever the other tokens
and their order. -/
theorem no_directive_no_change (session : HINT_SESSION) (request : List (List Nat))
    (h : ∀ cu0 cu1, find_comment request ScanSt.init = some cu0 →
      enter_comment cu0 = some cu1 →
      ∀ t ∈ token_stream (cu1.measure + 1) cu1, no_directive t) :
    (hint_parser_fn session request).2 = session := by
  cases hc : find_comment request ScanSt.init with
  | none =>
    simp only [hint_parser_fn, hc]
    exact retblock_session _ _
  | some cu0 =>
    cases he : enter_comment cu0 with
    | none =>
      simp only [hint_parser_fn, hc, he]
      exact retblock_session _ _
    | some cu1 =>
      simp only [hint_parser_fn, hc, he, hint_parser_body]
      split_ifs with hm
      · exact retblock_session _ _
      · rw [retblock_session]
        simp only [ne_eq, Decidable.not_not] at hm
        have hne : (hint_next_token cu1).1.token ≠ TOK_EOL := by rw [hm]; decide
        have hts : token_stream (cu1.measure + 1) cu1
            = (hint_next_token cu1).1 :: token_stream cu1.measure (hint_next_token cu1).2 := by
          simp only [token_stream, if_neg hne]
        have hall : ∀ t ∈ token_stream cu1.measure (hint_next_token cu1).2, no_directive t := by
          intro t ht
          exact h cu0 cu1 hc he t (by rw [hts]; exact List.mem_cons_of_mem _ ht)
        have hlt := hint_next_token_measure cu1 hne
        rw [hint_parser_loop_fuel _ cu1.measure _ _ (Nat.lt_succ_self _) hlt,
          hint_parser_loop_eq_foldl]
        obtain ⟨h1, h2⟩ := foldl_no_directive session _ (ParseSt.init session) hall
          ⟨rfl, rfl, by simp [ParseSt.init]⟩
        simp only [hint_parser_finish, h2, h1]

/-- Witness of C19: the comment `# maxscale route to server db1 x = 1 to master`
in a session with an active frame and a defined name. -/
theorem no_directive_no_change_witness :
    (hint_parser_fn ⟨[[RouteToSlave]], [(str "myhints", [RouteToMaster])]⟩
        [str "select 1 # maxscale route to server db1 x = 1 to master"]).2
      = ⟨[[RouteToSlave]], [(str "myhints", [RouteToMaster])]⟩ :=
  no_directive_no_change ⟨[[RouteToSlave]], [(str "myhints", [RouteToMaster])]⟩
    [str "select 1 # maxscale route to server db1 x = 1 to master"]
    (by
      intro cu0 cu1 h0 h1
      have e0 : cu0 = ⟨str "# maxscale route to server db1 x = 1 to master", []⟩ := by
        have : find_comment [str "select 1 # maxscale route to server db1 x = 1 to master"]
            ScanSt.init
            = some ⟨str "# maxscale route to server db1 x = 1 to master", []⟩ := by decide
        rw [this] at h0
        exact (Option.some.inj h0).symm
      subst e0
      have e1 : cu1 = ⟨str " maxscale route to server db1 x = 1 to master", []⟩ := by
        have : enter_comment ⟨str "# maxscale route to server db1 x = 1 to master", []⟩
            = some ⟨str " maxscale route to server db1 x = 1 to master", []⟩ := by decide
        rw [this] at h1
        exact (Option.some.inj h1).symm
      subst e1
      unfold no_directive
      decide)

end HintParser
